import Mathlib

set_option linter.unusedVariables false
set_option autoImplicit false

/-!
Verification of the generic RSA library (modular arithmetic engine, key
model checks, and the PKCS#1 v1.5 / OAEP / PSS padding engines) against a
shallow embedding of its source.

Machine integers of the generic unsigned type `T` are modelled as natural
numbers together with a bit width `w`; a value of the type satisfies
`v < 2 ^ w`.  Wrapping operations reduce modulo `2 ^ w` explicitly.  Byte
strings are `List Nat` with each element a byte value.  Fallible
operations return `Except Error`; an operation that can hit a Rust panic
(division by zero) returns an outcome type with an explicit panic case.
-/

/-- The error taxonomy of `src/errors.rs` (`enum Error`), plus the
`DigestBufferTooSmall` kind referenced by `src/algorithms/pss.rs`. -/
inductive Error where
  | InvalidPaddingScheme
  | Decryption
  | Verification
  | MessageTooLong
  | InputNotHashed
  | NprimesTooSmall
  | TooFewPrimes
  | InvalidPrime
  | InvalidModulus
  | InvalidExponent
  | InvalidCoefficient
  | ModulusTooLarge
  | PublicExponentTooSmall
  | PublicExponentTooLarge
  | Internal
  | LabelTooLong
  | InvalidPadLen
  | InvalidArguments
  | OutputBufferTooSmall
  | DigestBufferTooSmall
deriving DecidableEq, Repr

/-- Rust `wrapping_add` on `w`-bit unsigned integers. -/
def wrappingAdd (w a b : Nat) : Nat := (a + b) % 2 ^ w

/-- Rust `wrapping_sub` on `w`-bit unsigned integers (for operand values
below `2 ^ w` this is subtraction modulo `2 ^ w`). -/
def wrappingSub (w a b : Nat) : Nat := (a + (2 ^ w - b)) % 2 ^ w

/-- `mod_add` from `src/src/algorithms/modular/add.rs` (the local copy in
`src/src/algorithms/rsa/modmul.rs` is textually identical): reduce both
operands, wrapping-add them, and subtract `m` once when the sum reached `m`
or wrapped around. -/
def mod_add (w a b m : Nat) : Nat :=
  let a_mod := a % m
  let b_mod := b % m
  let sum := wrappingAdd w a_mod b_mod
  if m ≤ sum ∨ sum < a_mod then wrappingSub w sum m else sum

theorem mod_add_spec (w a b m : Nat) (hm : 0 < m) (hmw : m < 2 ^ w) :
    mod_add w a b m < m ∧ mod_add w a b m % m = (a + b) % m := by
  have hA : a % m < m := Nat.mod_lt _ hm
  have hB : b % m < m := Nat.mod_lt _ hm
  have h2w : 0 < 2 ^ w := Nat.pos_pow_of_pos w (by norm_num)
  simp only [mod_add, wrappingAdd, wrappingSub]
  rcases Nat.lt_or_ge (a % m + b % m) (2 ^ w) with hlt | hge
  · -- no overflow: the wrapped sum is the true sum
    have hsum : (a % m + b % m) % 2 ^ w = a % m + b % m := Nat.mod_eq_of_lt hlt
    rw [hsum]
    by_cases hms : m ≤ a % m + b % m
    · have hcond : m ≤ a % m + b % m ∨ a % m + b % m < a % m := Or.inl hms
      rw [if_pos hcond]
      have hval : a % m + b % m + (2 ^ w - m) = (a % m + b % m - m) + 2 ^ w := by omega
      have hred : (a % m + b % m - m) + 2 ^ w ≥ 2 ^ w := by omega
      have hsmall : a % m + b % m - m < 2 ^ w := by omega
      have : (a % m + b % m + (2 ^ w - m)) % 2 ^ w = a % m + b % m - m := by
        rw [hval, Nat.add_mod_right, Nat.mod_eq_of_lt hsmall]
      rw [this]
      constructor
      · omega
      · have hrw : a % m + b % m = (a % m + b % m - m) + m := by omega
        calc (a % m + b % m - m) % m
            = ((a % m + b % m - m) + m) % m := (Nat.add_mod_right _ _).symm
          _ = (a % m + b % m) % m := by rw [← hrw]
          _ = (a + b) % m := (Nat.add_mod a b m).symm
    · have hnot : ¬ (m ≤ a % m + b % m ∨ a % m + b % m < a % m) := by omega
      rw [if_neg hnot]
      constructor
      · omega
      · exact (Nat.add_mod a b m).symm
  · -- overflow: the wrapped sum lost exactly 2 ^ w
    have hlt2 : a % m + b % m < 2 ^ w + 2 ^ w := by omega
    have hsum : (a % m + b % m) % 2 ^ w = a % m + b % m - 2 ^ w := by
      rw [Nat.mod_eq_sub_mod hge, Nat.mod_eq_of_lt (by omega)]
    rw [hsum]
    have hcond : m ≤ a % m + b % m - 2 ^ w ∨ a % m + b % m - 2 ^ w < a % m := by
      right; omega
    rw [if_pos hcond]
    have hval : a % m + b % m - 2 ^ w + (2 ^ w - m) = a % m + b % m - m := by omega
    have hsmall : a % m + b % m - m < 2 ^ w := by omega
    rw [hval, Nat.mod_eq_of_lt hsmall]
    constructor
    · omega
    · have hrw : a % m + b % m = (a % m + b % m - m) + m := by omega
      calc (a % m + b % m - m) % m
          = ((a % m + b % m - m) + m) % m := (Nat.add_mod_right _ _).symm
        _ = (a % m + b % m) % m := by rw [← hrw]
        _ = (a + b) % m := (Nat.add_mod a b m).symm

/-- C2: for every unsigned width `w` and all values `a`, `b`, `m` of that
width with `m > 0`, `mod_add a b m` is below `m` and congruent to `a + b`
modulo `m`, including when the true sum overflows the width. -/
theorem mod_add_reduces_and_is_congruent (w a b m : Nat)
    (ha : a < 2 ^ w) (hb : b < 2 ^ w) (hm : 0 < m) (hmw : m < 2 ^ w) :
    mod_add w a b m < m ∧ mod_add w a b m ≡ a + b [MOD m] := by
  obtain ⟨h1, h2⟩ := mod_add_spec w a b m hm hmw
  exact ⟨h1, by unfold Nat.ModEq; rw [h2]⟩

/-- Witness for C2 at `w = 8`, `a = 200`, `b = 100`, `m = 50`
(a sum that overflows 8 bits). -/
theorem mod_add_reduces_and_is_congruent_witness :
    mod_add 8 200 100 50 < 50 ∧ mod_add 8 200 100 50 ≡ 200 + 100 [MOD 50] :=
  mod_add_reduces_and_is_congruent 8 200 100 50 (by norm_num) (by norm_num)
    (by norm_num) (by norm_num)

/-- The `while b > 0` loop of `mod_mul` in `src/src/algorithms/rsa/modmul.rs`
(double-and-add): when the low bit of `b` is set, accumulate `a` into
`result` via `mod_add`; double `a` via `mod_add`; halve `b`. -/
def modMulLoop (w m a b result : Nat) : Nat :=
  if h : b = 0 then result
  else
    let result := if b &&& 1 = 1 then mod_add w result a m else result
    modMulLoop w m (mod_add w a a m) (b >>> 1) result
termination_by b
decreasing_by
  simp only [Nat.shiftRight_one]
  exact Nat.div_lt_self (Nat.pos_of_ne_zero h) (by norm_num)

/-- `mod_mul` from `src/src/algorithms/rsa/modmul.rs`: reduce both operands
modulo `m`, then run the double-and-add loop with accumulator `0`.
(`src/src/algorithms/modular/mul.rs` is textually identical.) -/
def mod_mul (w a b m : Nat) : Nat :=
  modMulLoop w m (a % m) (b % m) 0

/-- The `while exp > 0` loop of `mod_exp` in `src/src/algorithms/rsa.rs`
(square-and-multiply): multiply `result` by `base` when the exponent is odd,
halve the exponent, and square `base` unless the exponent became zero. -/
def modExpLoop (w modulus base exp result : Nat) : Nat :=
  if h : exp = 0 then result
  else
    let result := if exp % 2 = 1 then mod_mul w result base modulus else result
    let exp2 := exp / 2
    let base := if 0 < exp2 then mod_mul w base base modulus else base
    modExpLoop w modulus base exp2 result
termination_by exp
decreasing_by
  exact Nat.div_lt_self (Nat.pos_of_ne_zero h) (by norm_num)

/-- `mod_exp` from `src/src/algorithms/rsa.rs`: reduce the base and run the
square-and-multiply loop with accumulator `1`. -/
def mod_exp (w base exponent modulus : Nat) : Nat :=
  modExpLoop w modulus (base % modulus) exponent 1

theorem modMulLoop_spec (w m : Nat) (hm : 0 < m) (hmw : m < 2 ^ w) :
    ∀ b a result, result < m →
      modMulLoop w m a b result < m ∧
      modMulLoop w m a b result % m = (result + a * b) % m := by
  intro b
  induction b using Nat.strong_induction_on with
  | _ b ih =>
    intro a result hr
    by_cases hb : b = 0
    · subst hb
      rw [modMulLoop, dif_pos rfl]
      exact ⟨hr, by rw [Nat.mul_zero, Nat.add_zero]⟩
    · rw [modMulLoop, dif_neg hb]
      simp only []
      have hhalf : b >>> 1 < b := by
        simp only [Nat.shiftRight_one]
        exact Nat.div_lt_self (Nat.pos_of_ne_zero hb) (by norm_num)
      set r2 := if b &&& 1 = 1 then mod_add w result a m else result with hr2
      have hr2lt : r2 < m := by
        rw [hr2]
        split
        · exact (mod_add_spec w result a m hm hmw).1
        · exact hr
      obtain ⟨ih1, ih2⟩ := ih (b >>> 1) hhalf (mod_add w a a m) r2 hr2lt
      refine ⟨ih1, ?_⟩
      rw [ih2]
      have hbit : b &&& 1 = b % 2 := Nat.and_one_is_mod b
      have hsplit : b = b % 2 + 2 * (b / 2) := by omega
      have haa : mod_add w a a m % m = (a + a) % m := (mod_add_spec w a a m hm hmw).2
      have hr2mod : r2 % m = (result + a * (b % 2)) % m := by
        rw [hr2, hbit]
        by_cases hodd : b % 2 = 1
        · rw [if_pos hodd, hodd, Nat.mul_one]
          exact (mod_add_spec w result a m hm hmw).2
        · have hz : b % 2 = 0 := by omega
          rw [if_neg (by omega), hz, Nat.mul_zero, Nat.add_zero]
      have hshift : b >>> 1 = b / 2 := Nat.shiftRight_one b
      calc (r2 + mod_add w a a m * (b >>> 1)) % m
          = (r2 % m + (mod_add w a a m * (b >>> 1)) % m) % m := by
            rw [← Nat.add_mod]
        _ = ((result + a * (b % 2)) % m
              + (mod_add w a a m % m * ((b >>> 1) % m)) % m) % m := by
            rw [hr2mod, Nat.mul_mod]
        _ = ((result + a * (b % 2)) % m
              + ((a + a) % m * ((b >>> 1) % m)) % m) % m := by rw [haa]
        _ = ((result + a * (b % 2)) % m + ((a + a) * (b >>> 1)) % m) % m := by
            rw [← Nat.mul_mod]
        _ = ((result + a * (b % 2)) + (a + a) * (b >>> 1)) % m := by
            rw [← Nat.add_mod]
        _ = (result + a * b) % m := by
            rw [hshift]
            congr 1
            have hre : (a + a) * (b / 2) = a * (2 * (b / 2)) := by ring
            rw [hre, Nat.add_assoc, ← Nat.mul_add, ← hsplit]

theorem mod_mul_spec (w a b m : Nat) (hm : 0 < m) (hmw : m < 2 ^ w) :
    mod_mul w a b m = a * b % m := by
  obtain ⟨h1, h2⟩ := modMulLoop_spec w m hm hmw (b % m) (a % m) 0 hm
  unfold mod_mul
  rw [← Nat.mod_eq_of_lt h1, h2, Nat.zero_add, ← Nat.mul_mod]

theorem modExpLoop_spec (w m : Nat) (hm : 0 < m) (hmw : m < 2 ^ w) :
    ∀ e base result,
      modExpLoop w m base e result % m = (result * base ^ e) % m := by
  intro e
  induction e using Nat.strong_induction_on with
  | _ e ih =>
    intro base result
    by_cases he : e = 0
    · subst he
      rw [modExpLoop, dif_pos rfl, pow_zero, Nat.mul_one]
    · rw [modExpLoop, dif_neg he]
      simp only []
      have hhalf : e / 2 < e := Nat.div_lt_self (Nat.pos_of_ne_zero he) (by norm_num)
      set r2 := if e % 2 = 1 then mod_mul w result base m else result with hr2
      set b2 := if 0 < e / 2 then mod_mul w base base m else base with hb2
      rw [ih (e / 2) hhalf b2 r2]
      have hr2mod : r2 % m = (result * base ^ (e % 2)) % m := by
        rw [hr2]
        by_cases hodd : e % 2 = 1
        · rw [if_pos hodd, hodd, pow_one, mod_mul_spec w result base m hm hmw,
            Nat.mod_mod_of_dvd _ (dvd_refl m)]
        · have h0 : e % 2 = 0 := by omega
          rw [if_neg (by omega), h0, pow_zero, Nat.mul_one]
      have hsplit : e = e % 2 + 2 * (e / 2) := by omega
      by_cases hpos : 0 < e / 2
      · have hsq : b2 % m = (base * base) % m := by
          rw [hb2, if_pos hpos, mod_mul_spec w base base m hm hmw,
            Nat.mod_mod_of_dvd _ (dvd_refl m)]
        calc (r2 * b2 ^ (e / 2)) % m
            = (r2 % m * ((b2 % m) ^ (e / 2) % m)) % m := by
              rw [Nat.mul_mod, Nat.pow_mod]
          _ = ((result * base ^ (e % 2)) % m
                * (((base * base) % m) ^ (e / 2) % m)) % m := by
              rw [hr2mod, hsq]
          _ = ((result * base ^ (e % 2)) % m
                * ((base * base) ^ (e / 2) % m)) % m := by
              rw [← Nat.pow_mod]
          _ = ((result * base ^ (e % 2)) * (base * base) ^ (e / 2)) % m := by
              rw [← Nat.mul_mod]
          _ = (result * base ^ e) % m := by
              congr 1
              have hpow : (base * base) ^ (e / 2) = base ^ (2 * (e / 2)) := by
                rw [mul_pow, two_mul, pow_add]
              rw [hpow, Nat.mul_assoc, ← pow_add, ← hsplit]
      · have he1 : e = 1 := by omega
        subst he1
        have hb2e : b2 = base := by rw [hb2, if_neg hpos]
        rw [hb2e]
        simpa using hr2mod

theorem modExpLoop_lt (w m : Nat) (hm : 0 < m) (hmw : m < 2 ^ w) :
    ∀ e base result, result < m → modExpLoop w m base e result < m := by
  intro e
  induction e using Nat.strong_induction_on with
  | _ e ih =>
    intro base result hr
    by_cases he : e = 0
    · subst he
      rw [modExpLoop, dif_pos rfl]
      exact hr
    · rw [modExpLoop, dif_neg he]
      simp only []
      have hhalf : e / 2 < e := Nat.div_lt_self (Nat.pos_of_ne_zero he) (by norm_num)
      apply ih (e / 2) hhalf
      split
      · exact (modMulLoop_spec w m hm hmw (base % m) (result % m) 0 hm).1
      · exact hr

theorem mod_exp_eq_pow_mod (w a e m : Nat) (hm : 2 ≤ m) (hmw : m < 2 ^ w) :
    mod_exp w a e m = a ^ e % m := by
  have hm0 : 0 < m := by omega
  have hlt : mod_exp w a e m < m :=
    modExpLoop_lt w m hm0 hmw e (a % m) 1 (by omega)
  have hmod : mod_exp w a e m % m = (1 * (a % m) ^ e) % m :=
    modExpLoop_spec w m hm0 hmw e (a % m) 1
  rw [Nat.one_mul, ← Nat.pow_mod] at hmod
  rw [← Nat.mod_eq_of_lt hlt, hmod]

theorem mod_mul_one_modulus (w x y : Nat) : mod_mul w x y 1 = 0 := by
  unfold mod_mul
  rw [Nat.mod_one, Nat.mod_one, modMulLoop, dif_pos rfl]

theorem modExpLoop_one_acc_zero (w : Nat) :
    ∀ e base, modExpLoop w 1 base e 0 = 0 := by
  intro e
  induction e using Nat.strong_induction_on with
  | _ e ih =>
    intro base
    by_cases he : e = 0
    · subst he
      rw [modExpLoop, dif_pos rfl]
    · rw [modExpLoop, dif_neg he]
      simp only []
      have hhalf : e / 2 < e := Nat.div_lt_self (Nat.pos_of_ne_zero he) (by norm_num)
      have hacc : (if e % 2 = 1 then mod_mul w 0 base 1 else 0) = 0 := by
        split
        · exact mod_mul_one_modulus w 0 base
        · rfl
      rw [hacc]
      exact ih (e / 2) hhalf _

theorem mod_exp_one_modulus (w a e : Nat) (he : 1 ≤ e) :
    mod_exp w a e 1 = 0 := by
  unfold mod_exp
  have main : ∀ e, 1 ≤ e → ∀ base result, modExpLoop w 1 base e result = 0 := by
    intro e
    induction e using Nat.strong_induction_on with
    | _ e ih =>
      intro he1 base result
      have he0 : e ≠ 0 := by omega
      rw [modExpLoop, dif_neg he0]
      simp only []
      by_cases hodd : e % 2 = 1
      · rw [if_pos hodd, mod_mul_one_modulus w result base]
        split
        · exact modExpLoop_one_acc_zero w _ _
        · exact modExpLoop_one_acc_zero w _ _
      · have h2 : 2 ≤ e := by omega
        have hhalf : e / 2 < e := Nat.div_lt_self (by omega) (by norm_num)
        have hge : 1 ≤ e / 2 := by omega
        rw [if_neg hodd]
        split
        · exact ih (e / 2) hhalf hge _ _
        · exact ih (e / 2) hhalf hge _ _
  exact main e he _ _

/-- Counterexample to C1 as stated: at `a = 0`, `e = 0`, `m = 1` (width 8)
the code returns `1`, while the claim simultaneously demands
`mod_exp(a, e, 1) = 0` and `a ^ e mod m = 0 ^ 0 mod 1 = 0`. -/
theorem mod_exp_zero_exponent_one_modulus_counterexample :
    mod_exp 8 0 0 1 = 1 ∧ (0 : Nat) ^ 0 % 1 = 0 := by
  constructor
  · rw [mod_exp, modExpLoop, dif_pos rfl]
  · norm_num

/-- C1 (amended): for width-`w` values with `m > 0`: `mod_exp a 0 m = 1`
for every `a` and every `m > 0` (also at `m = 1`); `mod_exp a e 1 = 0` for
every `e ≥ 1`; and for `m ≥ 2` the result is exactly `a ^ e mod m` (hence
`mod_exp a e m ≡ a ^ e (mod m)` for every `m > 0`). -/
theorem mod_exp_correct (w a e m : Nat) (ha : a < 2 ^ w) (he : e < 2 ^ w)
    (hm : 0 < m) (hmw : m < 2 ^ w) :
    mod_exp w a 0 m = 1 ∧
    (1 ≤ e → mod_exp w a e 1 = 0) ∧
    (2 ≤ m → mod_exp w a e m = a ^ e % m) ∧
    mod_exp w a e m ≡ a ^ e [MOD m] := by
  refine ⟨?_, ?_, ?_, ?_⟩
  · rw [mod_exp, modExpLoop, dif_pos rfl]
  · exact fun h1 => mod_exp_one_modulus w a e h1
  · exact fun h2 => mod_exp_eq_pow_mod w a e m h2 hmw
  · show mod_exp w a e m % m = a ^ e % m
    have hloop := modExpLoop_spec w m hm hmw e (a % m) 1
    unfold mod_exp
    rw [hloop, Nat.one_mul, ← Nat.pow_mod]

/-- Witness for C1 (amended) at `w = 8`, `a = 2`, `e = 3`, `m = 5`. -/
theorem mod_exp_correct_witness :
    mod_exp 8 2 0 5 = 1 ∧
    (1 ≤ 3 → mod_exp 8 2 3 1 = 0) ∧
    (2 ≤ 5 → mod_exp 8 2 3 5 = 2 ^ 3 % 5) ∧
    mod_exp 8 2 3 5 ≡ 2 ^ 3 [MOD 5] :=
  mod_exp_correct 8 2 3 5 (by norm_num) (by norm_num) (by norm_num) (by norm_num)

/-- `UnsignedModularInt::bits` from `src/src/traits/modular.rs`: count how
often the value can be shifted right before reaching zero. -/
def bits (n : Nat) : Nat :=
  if h : n = 0 then 0 else bits (n >>> 1) + 1
termination_by n
decreasing_by
  simp only [Nat.shiftRight_one]
  exact Nat.div_lt_self (Nat.pos_of_ne_zero h) (by norm_num)

/-- `UnsignedModularInt::is_even` from `src/src/traits/modular.rs`:
`self & 1 == 0`. -/
def is_even (n : Nat) : Bool := n &&& 1 == 0

/-- `RsaPublicKey::MIN_PUB_EXPONENT` (`src/src/key.rs`). -/
def MIN_PUB_EXPONENT : Nat := 2

/-- `RsaPublicKey::MAX_PUB_EXPONENT` (`src/src/key.rs`): `(1 << 33) - 1`. -/
def MAX_PUB_EXPONENT : Nat := 2 ^ 33 - 1

/-- `RsaPublicKey::MAX_SIZE` (`src/src/key.rs`). -/
def MAX_SIZE : Nat := 4096

/-- `check_public_with_max_size` from `src/src/key.rs`.  The
`e().to_u64().ok_or(PublicExponentTooLarge)?` step is the second branch:
a public exponent not representable in 64 bits fails immediately. -/
def check_public_with_max_size (n e max_size : Nat) : Except Error Unit :=
  if max_size < bits n then .error .ModulusTooLarge
  else if 2 ^ 64 ≤ e then .error .PublicExponentTooLarge
  else if n ≤ e ∨ is_even n then .error .InvalidModulus
  else if is_even e then .error .InvalidExponent
  else if e < MIN_PUB_EXPONENT then .error .PublicExponentTooSmall
  else if MAX_PUB_EXPONENT < e then .error .PublicExponentTooLarge
  else .ok ()

/-- `check_public` from `src/src/key.rs`: the default 4096-bit bound. -/
def check_public (n e : Nat) : Except Error Unit :=
  check_public_with_max_size n e MAX_SIZE

/-- `RsaPublicKey::new_with_max_size` from `src/src/key.rs`: run the checks
and return the key `{ n, e }` on success. -/
def rsa_public_key_new_with_max_size (n e max_size : Nat) :
    Except Error (Nat × Nat) :=
  match check_public_with_max_size n e max_size with
  | .error er => .error er
  | .ok () => .ok (n, e)

/-- `RsaPublicKey::new` from `src/src/key.rs`. -/
def rsa_public_key_new (n e : Nat) : Except Error (Nat × Nat) :=
  rsa_public_key_new_with_max_size n e MAX_SIZE

theorem is_even_eq_decide (n : Nat) : is_even n = decide (n % 2 = 0) := by
  unfold is_even
  rw [Nat.and_one_is_mod]
  cases h : n % 2 == 0 with
  | true => simp_all
  | false => simp_all

theorem new_with_max_size_ok_iff (n e max_size : Nat) :
    rsa_public_key_new_with_max_size n e max_size = .ok (n, e) ↔
      bits n ≤ max_size ∧ n % 2 = 1 ∧ e % 2 = 1 ∧ e < n ∧
        2 ≤ e ∧ e ≤ 2 ^ 33 - 1 := by
  unfold rsa_public_key_new_with_max_size check_public_with_max_size
    MIN_PUB_EXPONENT MAX_PUB_EXPONENT
  simp only [is_even_eq_decide]
  split_ifs with h1 h2 h3 h4 h5 h6 <;> simp_all <;> omega

theorem new_with_max_size_error_cause (n e max_size : Nat) (er : Error)
    (h : rsa_public_key_new_with_max_size n e max_size = .error er) :
    (er = .ModulusTooLarge → max_size < bits n) ∧
    (er = .InvalidModulus → n % 2 = 0 ∨ n ≤ e) ∧
    (er = .InvalidExponent → e % 2 = 0) ∧
    (er = .PublicExponentTooSmall → e < 2) ∧
    (er = .PublicExponentTooLarge → 2 ^ 33 - 1 < e) := by
  unfold rsa_public_key_new_with_max_size check_public_with_max_size
    MIN_PUB_EXPONENT MAX_PUB_EXPONENT at h
  split_ifs at h with h1 h2 h3 h4 h5 h6
  · simp at h; subst h
    exact ⟨fun _ => h1, fun hc => absurd hc (by decide),
      fun hc => absurd hc (by decide), fun hc => absurd hc (by decide),
      fun hc => absurd hc (by decide)⟩
  · simp at h; subst h
    exact ⟨fun hc => absurd hc (by decide), fun hc => absurd hc (by decide),
      fun hc => absurd hc (by decide), fun hc => absurd hc (by decide),
      fun _ => by omega⟩
  · simp at h; subst h
    refine ⟨fun hc => absurd hc (by decide), fun _ => ?_,
      fun hc => absurd hc (by decide), fun hc => absurd hc (by decide),
      fun hc => absurd hc (by decide)⟩
    rcases h3 with hle | hev
    · exact Or.inr hle
    · exact Or.inl (by simpa [is_even_eq_decide] using hev)
  · simp at h; subst h
    refine ⟨fun hc => absurd hc (by decide), fun hc => absurd hc (by decide),
      fun _ => ?_, fun hc => absurd hc (by decide),
      fun hc => absurd hc (by decide)⟩
    simpa [is_even_eq_decide] using h4
  · simp at h; subst h
    exact ⟨fun hc => absurd hc (by decide), fun hc => absurd hc (by decide),
      fun hc => absurd hc (by decide), fun _ => h5,
      fun hc => absurd hc (by decide)⟩
  · simp at h; subst h
    exact ⟨fun hc => absurd hc (by decide), fun hc => absurd hc (by decide),
      fun hc => absurd hc (by decide), fun hc => absurd hc (by decide),
      fun _ => h6⟩

/-- C4: `RsaPublicKey::new` / `new_with_max_size` succeed exactly when the
modulus bit length is within the bound (4096 for `new`), `n` is odd, `e` is
odd, `e < n`, and `2 ≤ e ≤ 2^33 - 1` (which makes `e` representable in 64
bits); and each failure kind implies its corresponding violated invariant:
`ModulusTooLarge` (n too wide), `InvalidModulus` (n even or e ≥ n),
`InvalidExponent` (e even), `PublicExponentTooSmall` (e < 2),
`PublicExponentTooLarge` (e > 2^33 - 1, in particular e ≥ 2^64). -/
theorem rsa_public_key_new_checks (n e max_size : Nat) :
    (rsa_public_key_new n e = .ok (n, e) ↔
      bits n ≤ 4096 ∧ n % 2 = 1 ∧ e % 2 = 1 ∧ e < n ∧
        2 ≤ e ∧ e ≤ 2 ^ 33 - 1) ∧
    (rsa_public_key_new_with_max_size n e max_size = .ok (n, e) ↔
      bits n ≤ max_size ∧ n % 2 = 1 ∧ e % 2 = 1 ∧ e < n ∧
        2 ≤ e ∧ e ≤ 2 ^ 33 - 1) ∧
    (∀ er, rsa_public_key_new_with_max_size n e max_size = .error er →
      (er = .ModulusTooLarge → max_size < bits n) ∧
      (er = .InvalidModulus → n % 2 = 0 ∨ n ≤ e) ∧
      (er = .InvalidExponent → e % 2 = 0) ∧
      (er = .PublicExponentTooSmall → e < 2) ∧
      (er = .PublicExponentTooLarge → 2 ^ 33 - 1 < e)) := by
  refine ⟨?_, new_with_max_size_ok_iff n e max_size,
    fun er h => new_with_max_size_error_cause n e max_size er h⟩
  have hdef : rsa_public_key_new n e =
      rsa_public_key_new_with_max_size n e 4096 := rfl
  rw [hdef]
  exact new_with_max_size_ok_iff n e 4096

/-- The constant-time accumulator of `pkcs1v15_sign_unpad`
(`src/src/algorithms/pkcs1v15.rs`): `ok` starts from `em[0] == 0`, then ANDs
in `em[1] == 1`, the hash block, the DigestInfo block, the separating zero
byte, and every byte of the `0xFF` run `em[2 .. k - t_len - 1)`. -/
def signPadOk (pfx hashed em : List Nat) (k : Nat) : Bool :=
  (em.getD 0 0 == 0) && (em.getD 1 0 == 1)
    && ((em.drop (k - hashed.length)).take hashed.length == hashed)
    && ((em.drop (k - (pfx.length + hashed.length))).take pfx.length == pfx)
    && (em.getD (k - (pfx.length + hashed.length) - 1) 0 == 0)
    && ((em.drop 2).take (k - (pfx.length + hashed.length) - 3)).all
        (fun el => el == 255)

/-- `pkcs1v15_sign_unpad` from `src/src/algorithms/pkcs1v15.rs`: reject when
`k < t_len + 11`, otherwise branch once on the accumulated comparison. -/
def pkcs1v15_sign_unpad (pfx hashed em : List Nat) (k : Nat) :
    Except Error Unit :=
  if k < pfx.length + hashed.length + 11 then .error .Verification
  else if signPadOk pfx hashed em k then .ok () else .error .Verification

theorem signPadOk_iff (pfx hashed em : List Nat) (k : Nat) :
    signPadOk pfx hashed em k = true ↔
      em.getD 0 0 = 0 ∧ em.getD 1 0 = 1 ∧
      (em.drop (k - hashed.length)).take hashed.length = hashed ∧
      (em.drop (k - (pfx.length + hashed.length))).take pfx.length = pfx ∧
      em.getD (k - (pfx.length + hashed.length) - 1) 0 = 0 ∧
      ∀ b ∈ (em.drop 2).take (k - (pfx.length + hashed.length) - 3), b = 255 := by
  unfold signPadOk
  simp [Bool.and_eq_true, List.all_eq_true, and_assoc]

theorem take_two_of_le (l : List Nat) (h : 2 ≤ l.length) :
    l.take 2 = [l.getD 0 0, l.getD 1 0] := by
  cases l with
  | nil => simp at h
  | cons a l1 =>
    cases l1 with
    | nil => simp at h
    | cons b t => simp [List.getD]

theorem drop_take_one (l : List Nat) (i : Nat) (h : i < l.length) :
    (l.drop i).take 1 = [l.getD i 0] := by
  rw [List.drop_eq_getElem_cons h, List.getD_eq_getElem l 0 h,
    List.take_succ_cons, List.take_zero]

theorem getD_append_len (l1 l2 : List Nat) (d : Nat) :
    (l1 ++ l2).getD l1.length d = l2.getD 0 d := by
  induction l1 with
  | nil => rfl
  | cons a t ih => simpa using ih

theorem unpad_struct_of_checks (pfx hashed em : List Nat) (k : Nat)
    (hlen : em.length = k) (hk : pfx.length + hashed.length + 11 ≤ k)
    (h0 : em.getD 0 0 = 0) (h1 : em.getD 1 0 = 1)
    (hH : (em.drop (k - hashed.length)).take hashed.length = hashed)
    (hP : (em.drop (k - (pfx.length + hashed.length))).take pfx.length = pfx)
    (hz : em.getD (k - (pfx.length + hashed.length) - 1) 0 = 0)
    (hff : ∀ b ∈ (em.drop 2).take (k - (pfx.length + hashed.length) - 3),
      b = 255) :
    em = [0, 1] ++ List.replicate (k - (pfx.length + hashed.length) - 3) 255
          ++ [0] ++ pfx ++ hashed := by
  set p := pfx.length with hp
  set hl := hashed.length with hhl
  set r := k - (p + hl) - 3 with hr
  -- five-way decomposition of em along the padding layout
  have d1 : em = em.take 2 ++ em.drop 2 := (List.take_append_drop 2 em).symm
  have d2 : em.drop 2 = (em.drop 2).take r ++ em.drop (2 + r) :=
    (List.drop_take_append_drop em 2 r).symm
  have d3 : em.drop (2 + r) = (em.drop (2 + r)).take 1 ++ em.drop (2 + r + 1) :=
    (List.drop_take_append_drop em (2 + r) 1).symm
  have d4 : em.drop (2 + r + 1)
      = (em.drop (2 + r + 1)).take p ++ em.drop (2 + r + 1 + p) :=
    (List.drop_take_append_drop em (2 + r + 1) p).symm
  -- identify the five pieces
  have c1 : em.take 2 = [0, 1] := by
    rw [take_two_of_le em (by omega), h0, h1]
  have c2 : (em.drop 2).take r = List.replicate r 255 := by
    rw [List.eq_replicate_iff]
    constructor
    · simp only [List.length_take, List.length_drop, hlen]
      omega
    · exact hff
  have c3 : (em.drop (2 + r)).take 1 = [0] := by
    rw [drop_take_one em (2 + r) (by omega)]
    have hidx : k - (p + hl) - 1 = 2 + r := by omega
    rw [← hidx, hz]
  have c4 : (em.drop (2 + r + 1)).take p = pfx := by
    have hidx : k - (p + hl) = 2 + r + 1 := by omega
    rw [← hidx, hP]
  have c5 : em.drop (2 + r + 1 + p) = hashed := by
    have hidx : k - hl = 2 + r + 1 + p := by omega
    have hlen2 : (em.drop (k - hl)).length = hl := by
      simp [List.length_drop, hlen]
      omega
    have := hH
    rw [List.take_of_length_le (le_of_eq hlen2)] at this
    rw [← hidx, this]
  calc em = em.take 2 ++ em.drop 2 := d1
    _ = em.take 2 ++ ((em.drop 2).take r ++ em.drop (2 + r)) := by rw [← d2]
    _ = em.take 2 ++ ((em.drop 2).take r
          ++ ((em.drop (2 + r)).take 1 ++ em.drop (2 + r + 1))) := by
        rw [← d3]
    _ = em.take 2 ++ ((em.drop 2).take r ++ ((em.drop (2 + r)).take 1
          ++ ((em.drop (2 + r + 1)).take p ++ em.drop (2 + r + 1 + p)))) := by
        rw [← d4]
    _ = [0, 1] ++ List.replicate r 255 ++ [0] ++ pfx ++ hashed := by
        rw [c1, c2, c3, c4, c5]
        simp [List.append_assoc]

theorem unpad_checks_of_struct (pfx hashed : List Nat) (k : Nat)
    (hk : pfx.length + hashed.length + 11 ≤ k) :
    signPadOk pfx hashed
      ([0, 1] ++ List.replicate (k - (pfx.length + hashed.length) - 3) 255
        ++ [0] ++ pfx ++ hashed) k = true := by
  set p := pfx.length with hp
  set hl := hashed.length with hhl
  set r := k - (p + hl) - 3 with hr
  set em := [0, 1] ++ List.replicate r 255 ++ [0] ++ pfx ++ hashed with hem
  rw [signPadOk_iff]
  have hEassoc : em = ([0, 1] ++ List.replicate r 255 ++ [0] ++ pfx) ++ hashed := by
    simp [hem, List.append_assoc]
  have hEassoc2 : em = ([0, 1] ++ List.replicate r 255 ++ [0]) ++ (pfx ++ hashed) := by
    simp [hem, List.append_assoc]
  have hEassoc3 : em = ([0, 1] ++ List.replicate r 255) ++ ([0] ++ (pfx ++ hashed)) := by
    simp [hem, List.append_assoc]
  have hEassoc4 : em = [0, 1] ++ (List.replicate r 255 ++ ([0] ++ (pfx ++ hashed))) := by
    simp [hem, List.append_assoc]
  refine ⟨?_, ?_, ?_, ?_, ?_, ?_⟩
  · rw [hem]; rfl
  · rw [hem]; rfl
  · -- the trailing hash block
    rw [hEassoc, List.drop_left' (by
        simp only [List.length_append, List.length_cons, List.length_nil,
          List.length_replicate]
        omega),
      List.take_of_length_le (le_refl _)]
  · -- the DigestInfo block
    rw [hEassoc2, List.drop_left' (by
        simp only [List.length_append, List.length_cons, List.length_nil,
          List.length_replicate]
        omega),
      List.take_left' rfl]
  · -- the separating zero byte
    have hidx : k - (p + hl) - 1 = ([0, 1] ++ List.replicate r 255).length := by
      simp only [List.length_append, List.length_cons, List.length_nil,
        List.length_replicate]
      omega
    rw [hEassoc3, hidx, getD_append_len]
    rfl
  · -- the 0xFF run
    rw [hEassoc4, List.drop_left' (by rfl),
      List.take_left' (by
        simp only [List.length_replicate])]
    intro b hb
    exact List.eq_of_mem_replicate hb

/-- C3: with `em` of length `k`, `pkcs1v15_sign_unpad` returns `Ok` exactly
when `em = 0x00 ‖ 0x01 ‖ 0xFF-run ‖ 0x00 ‖ prefix-bytes ‖ hashed` (the run
filling the remaining `k - t_len - 3` bytes); every other outcome —
including every `k < t_len + 11` — is the `Verification` error, and no other
error kind is returned. -/
theorem pkcs1v15_sign_unpad_characterization (pfx hashed em : List Nat)
    (k : Nat) (hlen : em.length = k) :
    (pkcs1v15_sign_unpad pfx hashed em k = .ok () ↔
      pfx.length + hashed.length + 11 ≤ k ∧
      em = [0, 1] ++ List.replicate (k - (pfx.length + hashed.length) - 3) 255
            ++ [0] ++ pfx ++ hashed) ∧
    (pkcs1v15_sign_unpad pfx hashed em k = .ok () ∨
      pkcs1v15_sign_unpad pfx hashed em k = .error .Verification) := by
  unfold pkcs1v15_sign_unpad
  by_cases hk : k < pfx.length + hashed.length + 11
  · rw [if_pos hk]
    exact ⟨⟨fun hcontr => by simp at hcontr,
      fun hand => absurd hand.1 (by omega)⟩, Or.inr rfl⟩
  · rw [if_neg hk]
    by_cases hok : signPadOk pfx hashed em k = true
    · rw [if_pos hok]
      refine ⟨⟨fun _ => ⟨by omega, ?_⟩, fun _ => rfl⟩, Or.inl rfl⟩
      obtain ⟨h0, h1, hH, hP, hz, hff⟩ := (signPadOk_iff pfx hashed em k).mp hok
      exact unpad_struct_of_checks pfx hashed em k hlen (by omega) h0 h1 hH hP hz hff
    · rw [if_neg hok]
      refine ⟨⟨fun hcontr => by simp at hcontr, fun hand => ?_⟩, Or.inr rfl⟩
      exact absurd (hand.2 ▸ unpad_checks_of_struct pfx hashed k (by omega)) hok

/-- Witness for C3: the minimal valid encoded message for empty prefix and
empty hash at `k = 11`. -/
theorem pkcs1v15_sign_unpad_characterization_witness :
    (pkcs1v15_sign_unpad [] []
        [0, 1, 255, 255, 255, 255, 255, 255, 255, 255, 0] 11 = .ok () ↔
      0 + 0 + 11 ≤ 11 ∧
      ([0, 1, 255, 255, 255, 255, 255, 255, 255, 255, 0] : List Nat)
        = [0, 1] ++ List.replicate (11 - (0 + 0) - 3) 255
            ++ [0] ++ [] ++ []) ∧
    (pkcs1v15_sign_unpad [] []
        [0, 1, 255, 255, 255, 255, 255, 255, 255, 255, 0] 11 = .ok () ∨
      pkcs1v15_sign_unpad [] []
        [0, 1, 255, 255, 255, 255, 255, 255, 255, 255, 0] 11
        = .error .Verification) :=
  pkcs1v15_sign_unpad_characterization [] []
    [0, 1, 255, 255, 255, 255, 255, 255, 255, 255, 0] 11 (by decide)

/-- One slot of `non_zero_random_bytes` (`src/src/algorithms/pkcs1v15.rs`):
a byte `b` already filled into the slot is kept if non-zero; otherwise the
`while *el == 0` loop redraws single bytes from the RNG stream.  The source
loop has no cap (`// TODO: break after a certain amount of time`); `fuel`
bounds the traces we can observe: `none` means the loop did not terminate
within `fuel` redraws. -/
def resampleByte (stream : Nat → Nat) : Nat → Nat → Nat → Option (Nat × Nat)
  | b, pos, fuel =>
    if b ≠ 0 then some (b, pos)
    else match fuel with
      | 0 => none
      | f + 1 => resampleByte stream (stream pos) (pos + 1) f

/-- The `for el in data` pass of `non_zero_random_bytes`: redraw each
already-filled byte that is zero.  `pos` is the next unread stream index. -/
def nonZeroLoop (stream : Nat → Nat) (fuel : Nat) :
    List Nat → Nat → Option (List Nat × Nat)
  | [], pos => some ([], pos)
  | b :: rest, pos =>
    match resampleByte stream b pos fuel with
    | none => none
    | some (b2, pos2) =>
      match nonZeroLoop stream fuel rest pos2 with
      | none => none
      | some (bs, pos3) => some (b2 :: bs, pos3)

/-- `non_zero_random_bytes` from `src/src/algorithms/pkcs1v15.rs`:
`rng.fill_bytes(data)` reads `n` stream bytes, then each zero byte is
redrawn until non-zero. -/
def non_zero_random_bytes (stream : Nat → Nat) (n pos fuel : Nat) :
    Option (List Nat × Nat) :=
  nonZeroLoop stream fuel ((List.range n).map fun i => stream (pos + i))
    (pos + n)

/-- `pkcs1v15_encrypt_pad` from `src/src/algorithms/pkcs1v15.rs`:
`EM = 0x00 ‖ 0x02 ‖ PS ‖ 0x00 ‖ msg` with `PS` the `k - msg.len() - 3`
non-zero random bytes.  The outer `Option` is `none` when the resampling
loop fails to terminate.  (For `k < 11` the source subtraction `k - 11`
underflows `usize`; callers pass the byte size of a checked modulus.) -/
def pkcs1v15_encrypt_pad (stream : Nat → Nat) (fuel : Nat) (msg : List Nat)
    (k storageLen : Nat) : Option (Except Error (List Nat)) :=
  if k - 11 < msg.length then some (.error .MessageTooLong)
  else if storageLen < k then some (.error .OutputBufferTooSmall)
  else
    match non_zero_random_bytes stream (k - msg.length - 3) 0 fuel with
    | none => none
    | some (ps, _) => some (.ok ([0, 2] ++ ps ++ [0] ++ msg))

theorem resampleByte_zero_stream (pos : Nat) :
    ∀ fuel, resampleByte (fun _ => 0) 0 pos fuel = none := by
  intro fuel
  induction fuel generalizing pos with
  | zero => rfl
  | succ f ih =>
    rw [resampleByte]
    simpa using ih (pos + 1)

theorem resampleByte_sound (stream : Nat → Nat) :
    ∀ fuel b pos b2 pos2,
      resampleByte stream b pos fuel = some (b2, pos2) →
      b2 ≠ 0 ∧ (b2 = b ∨ ∃ i, b2 = stream i) := by
  intro fuel
  induction fuel with
  | zero =>
    intro b pos b2 pos2 h
    rw [resampleByte] at h
    by_cases hb : b ≠ 0
    · rw [if_pos hb] at h
      simp only [Option.some.injEq, Prod.mk.injEq] at h
      obtain ⟨rfl, rfl⟩ := h
      exact ⟨hb, Or.inl rfl⟩
    · rw [if_neg hb] at h
      exact absurd h (by simp)
  | succ f ih =>
    intro b pos b2 pos2 h
    rw [resampleByte] at h
    by_cases hb : b ≠ 0
    · rw [if_pos hb] at h
      simp only [Option.some.injEq, Prod.mk.injEq] at h
      obtain ⟨rfl, rfl⟩ := h
      exact ⟨hb, Or.inl rfl⟩
    · rw [if_neg hb] at h
      obtain ⟨h1, h2⟩ := ih (stream pos) (pos + 1) b2 pos2 h
      refine ⟨h1, Or.inr ?_⟩
      rcases h2 with rfl | ⟨i, rfl⟩
      · exact ⟨pos, rfl⟩
      · exact ⟨i, rfl⟩

theorem resampleByte_nonzero (stream : Nat → Nat) (b pos fuel : Nat)
    (hb : b ≠ 0) : resampleByte stream b pos fuel = some (b, pos) := by
  cases fuel <;> rw [resampleByte] <;> rw [if_pos hb]

theorem nonZeroLoop_sound (stream : Nat → Nat) (fuel : Nat) :
    ∀ l pos bs pos3, (∀ b ∈ l, ∃ i, b = stream i) →
      nonZeroLoop stream fuel l pos = some (bs, pos3) →
      bs.length = l.length ∧ ∀ b ∈ bs, b ≠ 0 ∧ ∃ i, b = stream i := by
  intro l
  induction l with
  | nil =>
    intro pos bs pos3 hmem h
    rw [nonZeroLoop] at h
    simp only [Option.some.injEq, Prod.mk.injEq] at h
    obtain ⟨rfl, rfl⟩ := h
    simp
  | cons b rest ih =>
    intro pos bs pos3 hmem h
    rw [nonZeroLoop] at h
    cases hres : resampleByte stream b pos fuel with
    | none => simp [hres] at h
    | some v =>
      obtain ⟨b2, pos2⟩ := v
      simp only [hres] at h
      cases hrec : nonZeroLoop stream fuel rest pos2 with
      | none => simp [hrec] at h
      | some w =>
        obtain ⟨bs2, p3⟩ := w
        simp only [hrec, Option.some.injEq, Prod.mk.injEq] at h
        obtain ⟨rfl, rfl⟩ := h
        obtain ⟨hlen, hall⟩ := ih pos2 bs2 p3 (fun x hx => hmem x (by simp [hx])) hrec
        obtain ⟨hb2, hsrc⟩ := resampleByte_sound stream fuel b pos b2 pos2 hres
        refine ⟨by simp [hlen], ?_⟩
        intro x hx
        rcases List.mem_cons.mp hx with rfl | hx2
        · refine ⟨hb2, ?_⟩
          rcases hsrc with rfl | hi
          · exact hmem x (by simp)
          · exact hi
        · exact hall x hx2

theorem nonZeroLoop_all_nonzero (stream : Nat → Nat) (fuel : Nat) :
    ∀ l pos, (∀ b ∈ l, b ≠ 0) →
      nonZeroLoop stream fuel l pos = some (l, pos) := by
  intro l
  induction l with
  | nil => intro pos hmem; rw [nonZeroLoop]
  | cons b rest ih =>
    intro pos hmem
    rw [nonZeroLoop]
    simp only [resampleByte_nonzero stream b pos fuel (hmem b (by simp)),
      ih pos (fun x hx => hmem x (by simp [hx]))]

/-- Counterexample to C9 as stated: no redraw cap makes
`non_zero_random_bytes` total — on the all-zero RNG stream, a single
requested byte is never produced, whatever the cap. -/
theorem non_zero_random_bytes_no_cap_counterexample :
    ¬ ∃ cap : Nat, ∀ (stream : Nat → Nat) (n pos : Nat),
      (non_zero_random_bytes stream n pos cap).isSome = true := by
  rintro ⟨cap, h⟩
  have h1 := h (fun _ => 0) 1 0
  simp only [non_zero_random_bytes, List.range_succ, List.range_zero,
    List.nil_append, List.map_cons, List.map_nil] at h1
  rw [nonZeroLoop] at h1
  simp [resampleByte_zero_stream] at h1

/-- C9 (amended): the resampling loop of `non_zero_random_bytes` is
unbounded.  On an RNG that keeps returning zero the function (and hence
`pkcs1v15_encrypt_pad`, which calls it for at least 8 padding bytes) never
terminates, for every redraw bound; it does terminate (immediately, for any
bound) on an RNG whose bytes are never zero. -/
theorem non_zero_random_bytes_unbounded :
    (∀ fuel pos, non_zero_random_bytes (fun _ => 0) 1 pos fuel = none) ∧
    (∀ fuel msg k storageLen, 11 ≤ k → k ≤ storageLen →
      msg.length ≤ k - 14 →
      pkcs1v15_encrypt_pad (fun _ => 0) fuel msg k storageLen = none) ∧
    (∀ stream : Nat → Nat, (∀ i, stream i ≠ 0) → ∀ n pos fuel,
      non_zero_random_bytes stream n pos fuel
        = some (((List.range n).map fun i => stream (pos + i)), pos + n)) := by
  have hzero : ∀ n pos fuel, 1 ≤ n →
      non_zero_random_bytes (fun _ => 0) n pos fuel = none := by
    intro n pos fuel hn
    obtain ⟨n2, rfl⟩ : ∃ n2, n = n2 + 1 := ⟨n - 1, by omega⟩
    simp only [non_zero_random_bytes]
    have hfill : ((List.range (n2 + 1)).map fun i => (0 : Nat))
        = 0 :: List.replicate n2 0 := by
      have h1 : ((List.range (n2 + 1)).map fun i => (0 : Nat))
          = List.replicate (n2 + 1) 0 := by
        rw [List.eq_replicate_iff]
        refine ⟨by simp, ?_⟩
        intro b hb
        obtain ⟨i, hi, rfl⟩ := List.mem_map.mp hb
        rfl
      rw [h1, List.replicate_succ]
    rw [hfill, nonZeroLoop]
    simp [resampleByte_zero_stream]
  refine ⟨fun fuel pos => hzero 1 pos fuel (by omega), ?_, ?_⟩
  · intro fuel msg k storageLen hk hst hmsg
    rw [pkcs1v15_encrypt_pad, if_neg (by omega), if_neg (by omega),
      hzero (k - msg.length - 3) 0 fuel (by omega)]
  · intro stream hs n pos fuel
    rw [non_zero_random_bytes]
    exact nonZeroLoop_all_nonzero stream fuel _ (pos + n)
      (by
        intro b hb
        obtain ⟨i, hi, rfl⟩ := List.mem_map.mp hb
        exact hs (pos + i))

/-- C5: with `k ≥ 11` (a usable modulus byte size) and storage of at least
`k` bytes, `pkcs1v15_encrypt_pad` fails `MessageTooLong` exactly when
`msg.len() > k - 11`; whatever it successfully returns is a `k`-byte
`EM = 0x00 ‖ 0x02 ‖ PS ‖ 0x00 ‖ msg` whose `PS` is `k - msg.len() - 3`
RNG-drawn non-zero bytes; and at the boundary `msg.len() = k - 11` it
succeeds whenever the RNG delivers non-zero bytes. -/
theorem pkcs1v15_encrypt_pad_spec (stream : Nat → Nat) (fuel : Nat)
    (msg : List Nat) (k storageLen : Nat) (hk : 11 ≤ k)
    (hst : k ≤ storageLen) :
    (pkcs1v15_encrypt_pad stream fuel msg k storageLen
        = some (.error .MessageTooLong) ↔ k - 11 < msg.length) ∧
    (∀ em, pkcs1v15_encrypt_pad stream fuel msg k storageLen
        = some (.ok em) →
      msg.length ≤ k - 11 ∧ em.length = k ∧
      ∃ ps, ps.length = k - msg.length - 3 ∧
        (∀ b ∈ ps, b ≠ 0 ∧ ∃ i, b = stream i) ∧
        em = [0, 2] ++ ps ++ [0] ++ msg) ∧
    (msg.length = k - 11 → (∀ i, stream i ≠ 0) →
      pkcs1v15_encrypt_pad stream fuel msg k storageLen
        = some (.ok ([0, 2]
            ++ ((List.range (k - msg.length - 3)).map fun i => stream (0 + i))
            ++ [0] ++ msg))) := by
  refine ⟨?_, ?_, ?_⟩
  · constructor
    · intro h
      by_contra hlt
      rw [pkcs1v15_encrypt_pad, if_neg (by omega), if_neg (by omega)] at h
      cases hnz : non_zero_random_bytes stream (k - msg.length - 3) 0 fuel with
      | none => rw [hnz] at h; exact absurd h (by simp)
      | some v => rw [hnz] at h; exact absurd h (by simp)
    · intro h
      rw [pkcs1v15_encrypt_pad, if_pos h]
  · intro em h
    by_cases hlong : k - 11 < msg.length
    · rw [pkcs1v15_encrypt_pad, if_pos hlong] at h
      exact absurd h (by simp)
    · rw [pkcs1v15_encrypt_pad, if_neg hlong, if_neg (by omega)] at h
      cases hnz : non_zero_random_bytes stream (k - msg.length - 3) 0 fuel with
      | none => rw [hnz] at h; exact absurd h (by simp)
      | some v =>
        obtain ⟨ps, pos2⟩ := v
        rw [hnz] at h
        simp only [Option.some.injEq, Except.ok.injEq] at h
        subst h
        rw [non_zero_random_bytes] at hnz
        obtain ⟨hlen, hall⟩ := nonZeroLoop_sound stream fuel _ _ ps pos2
          (by
            intro b hb
            obtain ⟨i, hi, rfl⟩ := List.mem_map.mp hb
            exact ⟨0 + i, rfl⟩) hnz
        have hpslen : ps.length = k - msg.length - 3 := by
          rw [hlen]; simp
        refine ⟨by omega, ?_, ps, hpslen, hall, rfl⟩
        simp only [List.length_append, List.length_cons, List.length_nil,
          hpslen]
        omega
  · intro hb hs
    rw [pkcs1v15_encrypt_pad, if_neg (by omega), if_neg (by omega)]
    have := (non_zero_random_bytes_unbounded).2.2 stream hs
      (k - msg.length - 3) 0 fuel
    rw [this]

/-- The constant-one byte stream, a degenerate but valid RNG model used to
instantiate theorems at concrete inputs. -/
def oneStream : Nat → Nat := fun _ => 1

/-- Witness for C5 at `k = 12`, a one-byte message, storage of 16 bytes,
and the constant-one RNG stream. -/
theorem pkcs1v15_encrypt_pad_spec_witness :
    (pkcs1v15_encrypt_pad oneStream 0 [7] 12 16
        = some (.error .MessageTooLong) ↔ 12 - 11 < List.length [7]) ∧
    (∀ em, pkcs1v15_encrypt_pad oneStream 0 [7] 12 16
        = some (.ok em) →
      List.length [7] ≤ 12 - 11 ∧ em.length = 12 ∧
      ∃ ps, ps.length = 12 - List.length [7] - 3 ∧
        (∀ b ∈ ps, b ≠ 0 ∧ ∃ i, b = oneStream i) ∧
        em = [0, 2] ++ ps ++ [0] ++ [7]) ∧
    (List.length [7] = 12 - 11 → (∀ i, oneStream i ≠ 0) →
      pkcs1v15_encrypt_pad oneStream 0 [7] 12 16
        = some (.ok ([0, 2]
            ++ ((List.range (12 - List.length [7] - 3)).map
                fun i => oneStream (0 + i))
            ++ [0] ++ [7]))) :=
  pkcs1v15_encrypt_pad_spec oneStream 0 [7] 12 16 (by norm_num) (by norm_num)

/-- Outcome of a Rust function that can panic: a returned value, a returned
`Error`, or a panic (here: the division by zero in `validate`). -/
inductive ROutcome (α : Type) where
  | ok (a : α)
  | err (e : Error)
  | panicked
deriving DecidableEq

/-- The first loop of `RsaPrivateKey::validate` (`src/src/key.rs`): reject
any prime `< T::one()` and accumulate the product of the primes (wrapping
`T` multiplication; the accumulator starts at `T::one()`). -/
def validateProduct (w : Nat) : Nat → List Nat → Except Error Nat
  | m, [] => .ok m
  | m, p :: rest =>
    if p < 1 then .error .InvalidPrime
    else validateProduct w (m * p % 2 ^ w) rest

/-- The second loop of `validate`: for each prime `p`, check
`de % (p - 1) = 1`.  The Rust `de % (*prime - T::one())` panics when
`p = 1` (division by zero), which the model makes explicit. -/
def validateCongruences (de : Nat) : List Nat → ROutcome Unit
  | [] => .ok ()
  | p :: rest =>
    if p - 1 = 0 then .panicked
    else if de % (p - 1) ≠ 1 then .err .InvalidExponent
    else validateCongruences de rest

/-- `RsaPrivateKey::validate` from `src/src/key.rs`: the public-key checks,
then `Π primes = n` (`InvalidModulus` on mismatch), then the per-prime
congruence checks on `de = e · d` (wrapping `T` multiplication). -/
def validate (w n e d : Nat) (primes : List Nat) : ROutcome Unit :=
  match check_public n e with
  | .error er => .err er
  | .ok () =>
    match validateProduct w 1 primes with
    | .error er => .err er
    | .ok m =>
      if m ≠ n then .err .InvalidModulus
      else validateCongruences (e * d % 2 ^ w) primes

/-- C7 (code bug): for the two-prime key `n = 15 = 3·5`, `e = 3`, `d = 3`
(width 8) stored with the prime slots `[3, 5, 1, 1]`, the public-key checks
pass, the product check passes (`3·5·1·1 = 15 = n`), the first two
congruences hold (`de = 9`, `9 mod 2 = 1`, `9 mod 4 = 1`), and the third
iteration computes `de % (1 - 1)` — a division by zero, so `validate`
panics instead of returning `InvalidPrime`.  The claim (like the code's own
comment, which says primes `≤ 1` cause divide-by-zero panics later) expects
`InvalidPrime`, but the guard tests `prime < 1` instead of `prime ≤ 1`. -/
theorem validate_panics_on_prime_one :
    validate 8 15 3 3 [3, 5, 1, 1] = ROutcome.panicked := by
  have hb0 : bits 0 = 0 := by rw [bits, dif_pos rfl]
  have hb1 : bits 1 = 1 := by rw [bits]; norm_num [Nat.shiftRight_one, hb0]
  have hb3 : bits 3 = 2 := by rw [bits]; norm_num [Nat.shiftRight_one, hb1]
  have hb7 : bits 7 = 3 := by rw [bits]; norm_num [Nat.shiftRight_one, hb3]
  have hb : bits 15 = 4 := by rw [bits]; norm_num [Nat.shiftRight_one, hb7]
  have hcp : check_public 15 3 = .ok () := by
    unfold check_public check_public_with_max_size MAX_SIZE MIN_PUB_EXPONENT
      MAX_PUB_EXPONENT
    rw [hb]
    norm_num [is_even]
  unfold validate
  rw [hcp]
  norm_num [validateProduct, validateCongruences]

/-- `encrypt_internal` from `src/src/algorithms/oaep.rs`.  `seed` stands for
the `h_size` bytes written by `rng.fill_bytes(seed)` into `em[1..1+h_size]`,
and `mgf` for the closure of `oaep_encrypt` that masks `db` with
`MGF1(seed, ..)` and then `seed` with `MGF1(maskedDB, ..)`, returning the
final seed and db regions.  The source writes `p_hash`, the `0x01`
separator, and `msg` into the db region of the caller's storage but never
writes `em[0]` nor the `PS` bytes between `p_hash` and the separator: those
keep the caller's old storage contents (`ps` below). -/
def encrypt_internal (seed msg p_hash : List Nat) (h_size k : Nat)
    (mgf : List Nat → List Nat → List Nat × List Nat) (storage : List Nat) :
    Except Error (List Nat) :=
  if k < msg.length + 2 * h_size + 2 then .error .MessageTooLong
  else if storage.length < k then .error .OutputBufferTooSmall
  else
    let em := storage.take k
    let db_len := k - h_size - 1
    let db_old := em.drop (1 + h_size)
    let ps := (db_old.drop h_size).take (db_len - msg.length - 1 - h_size)
    let db := p_hash ++ ps ++ [1] ++ msg
    let pair := mgf seed db
    .ok (em.take 1 ++ pair.1 ++ pair.2)

/-- The identity mask: exposes the encoded message "before masking". -/
def idMgf : List Nat → List Nat → List Nat × List Nat := fun s d => (s, d)

/-- C8 (code bug): with caller storage prefilled with `0x55`,
`h_size = 4`, `p_hash = [9,9,9,9]`, `seed = [7,7,7,7]`, a one-byte message
`0xAA`, `k = 12`, and the identity mask (so the pre-mask encoded message is
visible), `encrypt_internal` returns
`0x55 ‖ seed ‖ pHash ‖ 0x55 ‖ 0x01 ‖ msg`: the leading byte is `0x55`, not
the `0x00` the claim requires, and the `PS` byte is `0x55`, not zero —
the source never writes `em[0]` nor the `PS` region of the caller's
buffer. -/
theorem oaep_encrypt_internal_leaves_storage_bytes :
    encrypt_internal [7, 7, 7, 7] [170] [9, 9, 9, 9] 4 12 idMgf
        (List.replicate 12 85)
      = .ok [85, 7, 7, 7, 7, 9, 9, 9, 9, 85, 1, 170] ∧
    (85 : Nat) ≠ 0 := by
  exact ⟨rfl, by decide⟩

/-- Step 6 of `emsa_pss_verify_pre` (`src/src/algorithms/pss.rs`):
`0xFF_u8.checked_shl(8 - delta).unwrap_or(0)` — the byte whose top `delta`
bits are set; zero when the shift count reaches 8 (`delta = 0`). -/
def topBitsMask (delta : Nat) : Nat :=
  if 8 - delta < 8 then (0xFF <<< (8 - delta)) % 256 else 0

/-- `emsa_pss_verify_pre` from `src/src/algorithms/pss.rs` (RFC 8017
§ 9.1.2 steps 2–6): hash-length check, `emLen < hLen + sLen + 2` check,
trailing `0xBC` byte, split into `maskedDB ‖ H`, and the check that the
leftmost `8·emLen − emBits` bits of the first masked byte are zero. -/
def emsa_pss_verify_pre (m_hash em : List Nat) (em_bits s_len h_len : Nat) :
    Except Error (List Nat × List Nat) :=
  if m_hash.length ≠ h_len then .error .Verification
  else
    let em_len := em.length
    if em_len < h_len + s_len + 2 then .error .Verification
    else if em.getD (em.length - 1) 0 ≠ 0xBC then .error .Verification
    else
      let db := em.take (em_len - h_len - 1)
      let h := (em.drop (em_len - h_len - 1)).take h_len
      if db.getD 0 0 &&& topBitsMask (8 * em_len - em_bits) ≠ 0 then
        .error .Verification
      else .ok (db, h)

/-- `emsa_pss_verify_salt` from `src/src/algorithms/pss.rs` (step 10):
the `emLen − hLen − sLen − 2` leftmost DB bytes are zero and the next byte
is `0x01`, folded into one constant-time boolean. -/
def emsa_pss_verify_salt (db : List Nat) (em_len s_len h_len : Nat) : Bool :=
  let zeroes := db.take (em_len - h_len - s_len - 2)
  let rest := db.drop (em_len - h_len - s_len - 2)
  zeroes.all (fun e => e == 0) && (rest.getD 0 0 == 1)

/-- Byte-wise in-place xor of `mgf1_xor`.  The MGF1 mask stream itself is
abstract here: `mod mgf;` is declared by `src/src/algorithms.rs` but
`mgf.rs` is not among the sources, so theorems quantify over the mask. -/
def xorBytes (a b : List Nat) : List Nat :=
  List.zipWith (fun x y => x ^^^ y) a b

/-- Step 9 of `emsa_pss_verify`: `db[0] &= 0xFF >> (8 * em_len - em_bits)`. -/
def clearFirstByte (delta : Nat) : List Nat → List Nat
  | [] => []
  | b :: rest => (b &&& (0xFF >>> delta)) :: rest

/-- `emsa_pss_verify` from `src/src/algorithms/pss.rs` (the `DynDigest`
variant cited by the claim).  `hashFn` is the abstract digest capability
(the concatenated `update` calls, read back as the `h_len`-byte prefix of
the digest buffer) and `mgf` the abstract MGF1 mask of a requested length.
`digest_fits` is the outcome of the external
`hash.finalize_into_reset(&mut digest_storage)` call into the fixed
64-byte `digest_storage` (`MAX_DIGEST_LEN = 64`): when the digest's output
does not fit that buffer the source maps the failure to
`Error::DigestBufferTooSmall` and returns early, before the final
comparison.  (The digest-generic `emsa_pss_verify_digest` performs the same
computation but finalizes with `hash.finalize_reset()` and no buffer, so it
corresponds to `digest_fits = true`.) -/
def emsa_pss_verify (h_len : Nat) (digest_fits : Bool)
    (hashFn : List Nat → List Nat) (mgf : List Nat → Nat → List Nat)
    (m_hash em : List Nat) (s_len key_bits : Nat) : Except Error Unit :=
  let em_bits := key_bits - 1
  let em_len := (em_bits + 7) / 8
  let key_len := (key_bits + 7) / 8
  let em2 := em.drop (key_len - em_len)
  match emsa_pss_verify_pre m_hash em2 em_bits s_len h_len with
  | .error er => .error er
  | .ok (db, h) =>
    let db3 := clearFirstByte (8 * em_len - em_bits)
      (xorBytes db (mgf h db.length))
    let salt_valid := emsa_pss_verify_salt db3 em_len s_len h_len
    let salt := db3.drop (db3.length - s_len)
    let hp := hashFn (List.replicate 8 0 ++ m_hash ++ salt)
    if digest_fits then
      if salt_valid && (hp == h) then .ok () else .error .Verification
    else .error .DigestBufferTooSmall

theorem emsa_pss_verify_pre_spec (m_hash em2 : List Nat)
    (em_bits s_len h_len : Nat) :
    emsa_pss_verify_pre m_hash em2 em_bits s_len h_len =
      if m_hash.length = h_len ∧ h_len + s_len + 2 ≤ em2.length ∧
          em2.getD (em2.length - 1) 0 = 0xBC ∧
          (em2.take (em2.length - h_len - 1)).getD 0 0
            &&& topBitsMask (8 * em2.length - em_bits) = 0 then
        .ok (em2.take (em2.length - h_len - 1),
          (em2.drop (em2.length - h_len - 1)).take h_len)
      else .error .Verification := by
  simp only [emsa_pss_verify_pre]
  by_cases h1 : m_hash.length ≠ h_len
  · rw [if_pos h1, if_neg (fun hc => absurd hc.1 h1)]
  · push_neg at h1
    rw [if_neg (by simp [h1])]
    by_cases h2 : em2.length < h_len + s_len + 2
    · rw [if_pos h2, if_neg (fun hc => absurd hc.2.1 (by omega))]
    · rw [if_neg h2]
      by_cases h3 : em2.getD (em2.length - 1) 0 ≠ 0xBC
      · rw [if_pos h3, if_neg (fun hc => absurd hc.2.2.1 h3)]
      · push_neg at h3
        rw [if_neg (not_not_intro h3)]
        by_cases h4 : (em2.take (em2.length - h_len - 1)).getD 0 0
            &&& topBitsMask (8 * em2.length - em_bits) ≠ 0
        · rw [if_pos h4, if_neg (fun hc => absurd hc.2.2.2 h4)]
        · push_neg at h4
          rw [if_neg (not_not_intro h4), if_pos ⟨h1, by omega, h3, h4⟩]

theorem getD_drop_zero (l : List Nat) : ∀ (j d : Nat),
    (l.drop j).getD 0 d = l.getD j d := by
  induction l with
  | nil => intro j d; simp [List.getD]
  | cons a t ih =>
    intro j d
    cases j with
    | zero => rfl
    | succ j2 => exact ih j2 d

theorem emsa_pss_verify_salt_iff (db3 : List Nat) (em_len s_len h_len : Nat) :
    emsa_pss_verify_salt db3 em_len s_len h_len = true ↔
      (∀ b ∈ db3.take (em_len - h_len - s_len - 2), b = 0) ∧
      db3.getD (em_len - h_len - s_len - 2) 0 = 1 := by
  simp only [emsa_pss_verify_salt, Bool.and_eq_true, List.all_eq_true,
    beq_iff_eq, getD_drop_zero]

/-- C6 (amended): `emsa_pss_verify` returns only `Ok`, the `Verification`
error, or — when the digest's output does not fit the fixed 64-byte
`digest_storage` buffer — `DigestBufferTooSmall`.  It fails whenever
`mHash.len ≠ hLen`, `emLen < hLen + sLen + 2`, the trailing byte is not
`0xBC`, or the top `8·emLen − emBits` bits of the leading masked byte are
non-zero; when those pre-checks pass and the digest fits, it succeeds
exactly when the unmasked and re-cleared `DB` has
`emLen − hLen − sLen − 2` leading zero bytes followed by `0x01` and the
recomputed hash over `0x00×8 ‖ mHash ‖ salt` equals `H`; and it returns
`DigestBufferTooSmall` exactly when the pre-checks pass but the digest
does not fit the buffer. -/
theorem emsa_pss_verify_characterization
    (h_len s_len key_bits em_bits em_len key_len : Nat) (digest_fits : Bool)
    (hashFn : List Nat → List Nat) (mgf : List Nat → Nat → List Nat)
    (m_hash em db hBlock db3 : List Nat)
    (hbits : em_bits = key_bits - 1)
    (hlen : em_len = (em_bits + 7) / 8)
    (hklen : key_len = (key_bits + 7) / 8)
    (hem : em.length = key_len)
    (hdb : db = (em.drop (key_len - em_len)).take (em_len - h_len - 1))
    (hh : hBlock
      = ((em.drop (key_len - em_len)).drop (em_len - h_len - 1)).take h_len)
    (hdb3 : db3 = clearFirstByte (8 * em_len - em_bits)
      (xorBytes db (mgf hBlock db.length))) :
    (emsa_pss_verify h_len digest_fits hashFn mgf m_hash em s_len key_bits
        = .ok () ∨
     emsa_pss_verify h_len digest_fits hashFn mgf m_hash em s_len key_bits
        = .error .Verification ∨
     emsa_pss_verify h_len digest_fits hashFn mgf m_hash em s_len key_bits
        = .error .DigestBufferTooSmall) ∧
    (emsa_pss_verify h_len digest_fits hashFn mgf m_hash em s_len key_bits
        = .ok () ↔
      digest_fits = true ∧
      m_hash.length = h_len ∧
      h_len + s_len + 2 ≤ em_len ∧
      (em.drop (key_len - em_len)).getD (em_len - 1) 0 = 0xBC ∧
      db.getD 0 0 &&& topBitsMask (8 * em_len - em_bits) = 0 ∧
      (∀ b ∈ db3.take (em_len - h_len - s_len - 2), b = 0) ∧
      db3.getD (em_len - h_len - s_len - 2) 0 = 1 ∧
      hashFn (List.replicate 8 0 ++ m_hash ++ db3.drop (db3.length - s_len))
        = hBlock) ∧
    (emsa_pss_verify h_len digest_fits hashFn mgf m_hash em s_len key_bits
        = .error .DigestBufferTooSmall ↔
      digest_fits = false ∧
      m_hash.length = h_len ∧
      h_len + s_len + 2 ≤ em_len ∧
      (em.drop (key_len - em_len)).getD (em_len - 1) 0 = 0xBC ∧
      db.getD 0 0 &&& topBitsMask (8 * em_len - em_bits) = 0) := by
  simp only [emsa_pss_verify]
  rw [← hbits, ← hlen, ← hklen]
  have hem2 : (em.drop (key_len - em_len)).length = em_len := by
    rw [List.length_drop, hem]
    omega
  rw [emsa_pss_verify_pre_spec, hem2]
  by_cases hpre : m_hash.length = h_len ∧ h_len + s_len + 2 ≤ em_len ∧
      (em.drop (key_len - em_len)).getD (em_len - 1) 0 = 0xBC ∧
      ((em.drop (key_len - em_len)).take (em_len - h_len - 1)).getD 0 0
        &&& topBitsMask (8 * em_len - em_bits) = 0
  · rw [if_pos hpre]
    dsimp only
    rw [← hdb, ← hh, ← hdb3]
    cases digest_fits with
    | false =>
      rw [if_neg (by simp)]
      refine ⟨Or.inr (Or.inr rfl), ?_, ?_⟩
      · constructor
        · intro hc
          simp at hc
        · intro hc
          exact absurd hc.1 (by simp)
      · exact ⟨fun _ => ⟨rfl, hpre.1, hpre.2.1, hpre.2.2.1,
          by rw [hdb]; exact hpre.2.2.2⟩, fun _ => rfl⟩
    | true =>
      rw [if_pos rfl]
      by_cases hcond : (emsa_pss_verify_salt db3 em_len s_len h_len
          && (hashFn (List.replicate 8 0 ++ m_hash
                ++ db3.drop (db3.length - s_len)) == hBlock)) = true
      · rw [if_pos hcond]
        obtain ⟨hsalt, hbeq⟩ := Bool.and_eq_true_iff.mp hcond
        obtain ⟨h5, h6⟩ :=
          (emsa_pss_verify_salt_iff db3 em_len s_len h_len).mp hsalt
        refine ⟨Or.inl rfl, ?_, ?_⟩
        · exact ⟨fun _ => ⟨rfl, hpre.1, hpre.2.1, hpre.2.2.1,
            by rw [hdb]; exact hpre.2.2.2, h5, h6, beq_iff_eq.mp hbeq⟩,
            fun _ => rfl⟩
        · constructor
          · intro hc
            simp at hc
          · intro hc
            exact absurd hc.1 (by simp)
      · rw [if_neg hcond]
        refine ⟨Or.inr (Or.inl rfl), ?_, ?_⟩
        · constructor
          · intro hc
            simp at hc
          · intro hrhs
            apply absurd _ hcond
            rw [Bool.and_eq_true]
            exact ⟨(emsa_pss_verify_salt_iff db3 em_len s_len h_len).mpr
                ⟨hrhs.2.2.2.2.2.1, hrhs.2.2.2.2.2.2.1⟩,
              beq_iff_eq.mpr hrhs.2.2.2.2.2.2.2⟩
        · constructor
          · intro hc
            simp at hc
          · intro hc
            exact absurd hc.1 (by simp)
  · rw [if_neg hpre]
    dsimp only
    refine ⟨Or.inr (Or.inl rfl), ?_, ?_⟩
    · constructor
      · intro hc
        simp at hc
      · intro hrhs
        exact absurd ⟨hrhs.2.1, hrhs.2.2.1, hrhs.2.2.2.1,
          hdb ▸ hrhs.2.2.2.2.1⟩ hpre
    · constructor
      · intro hc
        simp at hc
      · intro hrhs
        exact absurd ⟨hrhs.2.1, hrhs.2.2.1, hrhs.2.2.2.1,
          hdb ▸ hrhs.2.2.2.2⟩ hpre

/-- The all-zero MGF1 mask, used to instantiate the PSS theorem. -/
def zeroMask : List Nat → Nat → List Nat := fun _ n => List.replicate n 0

/-- The empty digest (output size 0), used to instantiate the PSS theorem. -/
def emptyHash : List Nat → List Nat := fun _ => []

/-- Counterexample to C6 as stated: a digest with 65-byte output cannot
fit the fixed 64-byte `digest_storage` buffer (`MAX_DIGEST_LEN = 64`), so
its `finalize_into_reset` call fails whatever the external `DynDigest`
acceptance condition is.  With `h_len = 65`, `s_len = 0`,
`key_bits = 544` (so `em_len = key_len = 68`), a 65-byte message hash and
`em = 0x00 ‖ 0x01 ‖ 0x02×65 ‖ 0xBC`, all four pre-checks pass, yet
`emsa_pss_verify` returns `DigestBufferTooSmall` — not `Ok` and not the
`Verification` error, the only outcomes the claim allows. -/
theorem emsa_pss_verify_digest_buffer_counterexample :
    emsa_pss_verify 65 false emptyHash zeroMask (List.replicate 65 2)
        ([0, 1] ++ List.replicate 65 2 ++ [188]) 0 544
      = .error .DigestBufferTooSmall := rfl

/-- Witness for C6 (amended) at `key_bits = 16` (so `em_bits = 15`,
`em_len = key_len = 2`), `h_len = s_len = 0`, `em = [0x00, 0xBC]`, a
fitting digest (`digest_fits = true`), the all-zero mask and the empty
digest. -/
theorem emsa_pss_verify_characterization_witness :
    (emsa_pss_verify 0 true emptyHash zeroMask [] [0, 188] 0 16 = .ok () ∨
     emsa_pss_verify 0 true emptyHash zeroMask [] [0, 188] 0 16
        = .error .Verification ∨
     emsa_pss_verify 0 true emptyHash zeroMask [] [0, 188] 0 16
        = .error .DigestBufferTooSmall) ∧
    (emsa_pss_verify 0 true emptyHash zeroMask [] [0, 188] 0 16 = .ok () ↔
      true = true ∧
      List.length ([] : List Nat) = 0 ∧
      0 + 0 + 2 ≤ 2 ∧
      (List.drop (2 - 2) [0, 188]).getD (2 - 1) 0 = 0xBC ∧
      List.getD [0] 0 0 &&& topBitsMask (8 * 2 - 15) = 0 ∧
      (∀ b ∈ List.take (2 - 0 - 0 - 2) [0], b = 0) ∧
      List.getD [0] (2 - 0 - 0 - 2) 0 = 1 ∧
      emptyHash (List.replicate 8 0 ++ [] ++ List.drop (List.length [0] - 0) [0])
        = []) ∧
    (emsa_pss_verify 0 true emptyHash zeroMask [] [0, 188] 0 16
        = .error .DigestBufferTooSmall ↔
      true = false ∧
      List.length ([] : List Nat) = 0 ∧
      0 + 0 + 2 ≤ 2 ∧
      (List.drop (2 - 2) [0, 188]).getD (2 - 1) 0 = 0xBC ∧
      List.getD [0] 0 0 &&& topBitsMask (8 * 2 - 15) = 0) :=
  emsa_pss_verify_characterization 0 0 16 15 2 2 true emptyHash zeroMask
    [] [0, 188] [0] [] [0] rfl rfl rfl rfl rfl rfl (by decide)

/-- `num_traits::ToBytes::to_be_bytes` for a `w`-bit unsigned value: all
`w / 8` bytes, most significant first (leading zeros included). -/
def toBeBytes (w v : Nat) : List Nat :=
  (List.range (w / 8)).map fun i => v / 256 ^ (w / 8 - 1 - i) % 256

/-- `left_pad` from `src/src/algorithms/pad.rs`: `InvalidPadLen` when the
input is longer than the requested length, `OutputBufferTooSmall` when the
storage cannot hold it, otherwise the input left-padded with zeros. -/
def left_pad (input : List Nat) (padded_len storage_len : Nat) :
    Except Error (List Nat) :=
  if padded_len < input.length then .error .InvalidPadLen
  else if storage_len < padded_len then .error .OutputBufferTooSmall
  else .ok (List.replicate (padded_len - input.length) 0 ++ input)

/-- `uint_to_be_pad` from `src/src/algorithms/pad.rs`. -/
def uint_to_be_pad (w : Nat) (input padded_len storage_len : Nat) :
    Except Error (List Nat) :=
  left_pad (toBeBytes w input) padded_len storage_len

/-- `PublicKeyParts::size` from `src/src/traits/keys.rs`:
`(n.bits() + 7) / 8`. -/
def keySize (n : Nat) : Nat := (bits n + 7) / 8

/-- `verify` from `src/src/pkcs1v15.rs`: reject out-of-range or wrongly
sized signatures with `Verification`, then raw-RSA the signature, pad it to
`k` bytes in the 1024-byte stack buffer, and run the structural unpad. -/
def pkcs1v15_verify (w n e : Nat) (pfx hashed : List Nat)
    (sig sig_len : Nat) : Except Error Unit :=
  if n ≤ sig ∨ sig_len ≠ keySize n then .error .Verification
  else
    match uint_to_be_pad w (mod_exp w sig e n) (keySize n) 1024 with
    | .error er => .error er
    | .ok em => pkcs1v15_sign_unpad pfx hashed em (keySize n)

/-- `verify_digest` from `src/src/pss.rs`: the same guard, then raw RSA,
padding into the signature's own `to_be_bytes` buffer (`w / 8` bytes), and
`emsa_pss_verify_digest` at `key_bits = n.bits()` (that digest-generic
variant finalizes with `hash.finalize_reset()` and no fixed buffer, hence
`digest_fits = true`). -/
def pss_verify_digest (w h_len : Nat) (hashFn : List Nat → List Nat)
    (mgf : List Nat → Nat → List Nat) (n e : Nat) (hashed : List Nat)
    (sig sig_len s_len : Nat) : Except Error Unit :=
  if n ≤ sig ∨ sig_len ≠ keySize n then .error .Verification
  else
    match uint_to_be_pad w (mod_exp w sig e n) (keySize n) (w / 8) with
    | .error er => .error er
    | .ok em => emsa_pss_verify h_len true hashFn mgf hashed em s_len (bits n)

/-- C10: both signature-verification entry points return the `Verification`
error whenever the signature value is `≥ n` or the supplied length differs
from the key byte size — for every exponent, prefix, hash, digest and mask,
i.e. before the exponentiation or any structural check can influence the
result; the downstream unpadding runs only when `sig < n` and
`sig_len = keySize n`. -/
theorem verify_rejects_out_of_range (w h_len n e sig sig_len s_len : Nat)
    (pfx hashed : List Nat) (hashFn : List Nat → List Nat)
    (mgf : List Nat → Nat → List Nat)
    (h : n ≤ sig ∨ sig_len ≠ keySize n) :
    pkcs1v15_verify w n e pfx hashed sig sig_len = .error .Verification ∧
    pss_verify_digest w h_len hashFn mgf n e hashed sig sig_len s_len
      = .error .Verification := by
  constructor
  · rw [pkcs1v15_verify, if_pos h]
  · rw [pss_verify_digest, if_pos h]

/-- Witness for C10: `n = 15` (key size 1 byte), signature value `20 ≥ n`
with a correct length. -/
theorem verify_rejects_out_of_range_witness :
    pkcs1v15_verify 8 15 3 [] [] 20 1 = .error .Verification ∧
    pss_verify_digest 8 0 emptyHash zeroMask 15 3 [] 20 1 0
      = .error .Verification :=
  verify_rejects_out_of_range 8 0 15 3 20 1 0 [] [] emptyHash zeroMask
    (Or.inl (by norm_num))
